import Mathlib

/-!
Verification of the RAGging multilingual RAG pipeline.

Each Python component relevant to the checked properties is shallowly
embedded as executable Lean definitions: strings are processed on
`List Char` mirroring Python string methods, floating-point scores are
modelled as `ℚ`, the SQLite jobs table as an insertion-ordered list of
rows, and external collaborators (the tiktoken tokenizer, the BM25
library, the LLM judges and generators) as explicit parameters.
-/

set_option maxRecDepth 8192

namespace RAGging

/-! ### Python string-method helpers (on `List Char`) -/

/-- Python `str.strip()` on the character list: drop whitespace at both ends. -/
def trimChars (l : List Char) : List Char :=
  ((l.dropWhile Char.isWhitespace).reverse.dropWhile Char.isWhitespace).reverse

/-- Python `str.strip()`. -/
def pyStrip (s : String) : String := ⟨trimChars s.data⟩

/-- Python `str.lower()` (ASCII case fold, enough for the embedded texts). -/
def pyLower (s : String) : String := ⟨s.data.map Char.toLower⟩

/-- Python `str.split('\n')`. -/
def pySplitLines (s : String) : List String := (s.data.splitOn '\n').map (fun l => ⟨l⟩)

/-- Python `str.split()` with no argument: split on whitespace runs, no empties. -/
def pySplitWs (s : String) : List String :=
  ((s.data.splitOnP Char.isWhitespace).filter (fun w => w ≠ [])).map (fun l => ⟨l⟩)

/-- Numeric value of a digit string, as Python `int` reads it. -/
def natOfDigits (l : List Char) : Nat := l.foldl (fun n c => 10 * n + (c.toNat - 48)) 0

/-- Python `str.isdigit()` (ASCII digits). -/
def pyIsDigit (s : String) : Bool := s ≠ "" && s.data.all Char.isDigit

/-! ### Decomposition agent: `DecompositionAgent._parse_sub_queries`
(src/agents/decomposition_agent.py). -/

namespace Decomp

/-- `re.sub(r'^\d+[\.\)]\s*', '', line)`: strip a leading `1.` / `2)` numbering. -/
def dropNumbering (l : List Char) : List Char :=
  let ds := l.takeWhile Char.isDigit
  let rest := l.dropWhile Char.isDigit
  if ds = [] then l
  else
    match rest with
    | c :: r => if c = '.' ∨ c = ')' then r.dropWhile Char.isWhitespace else l
    | [] => l

/-- The character class of `re.sub(r'^[-\*â€¢]\s*', '', line)` as the source
file's bytes spell it (a mojibake bullet). -/
def bulletChars : List Char := ['-', '*', 'â', '€', '¢']

/-- Strip one leading bullet character and following whitespace. -/
def dropBullet (l : List Char) : List Char :=
  match l with
  | c :: r => if c ∈ bulletChars then r.dropWhile Char.isWhitespace else l
  | [] => l

/-- The characters Python `line.strip('"\'')` removes. -/
def quoteChars : List Char := ['"', Char.ofNat 39]

/-- Python `line.strip('"\'')`. -/
def stripQuotes (l : List Char) : List Char :=
  ((l.dropWhile (· ∈ quoteChars)).reverse.dropWhile (· ∈ quoteChars)).reverse

/-- One loop body of `_parse_sub_queries`: strip, drop numbering, drop bullet,
strip quotes. -/
def cleanLine (line : String) : String :=
  ⟨stripQuotes (dropBullet (dropNumbering (trimChars line.data)))⟩

/-- The keep test `if line and len(line) > 10`. -/
def keepLine (s : String) : Bool := s ≠ "" && s.length > 10

/-- `DecompositionAgent._parse_sub_queries`: split the response into lines,
clean each, keep the long ones in order, cap at 4. -/
def parseSubQueries (responseText : String) : List String :=
  let lines := pySplitLines (pyStrip responseText)
  (lines.foldl (fun acc line =>
    let c := cleanLine line
    if keepLine c then acc ++ [c] else acc) []).take 4

theorem parse_foldl_filter (lines : List String) (acc : List String) :
    lines.foldl (fun acc line =>
      let c := cleanLine line
      if keepLine c then acc ++ [c] else acc) acc
      = acc ++ (lines.map cleanLine).filter keepLine := by
  induction lines generalizing acc with
  | nil => simp
  | cons l ls ih =>
    simp only [List.foldl_cons, List.map_cons, List.filter_cons]
    cases h : keepLine (cleanLine l) <;> simp [h, ih]

end Decomp

/-- Claim C7 (amended): `_parse_sub_queries` keeps, in order, exactly the lines
whose cleaned form is nonempty and has length strictly greater than 10
characters (so a cleaned line of exactly 10 characters is discarded), and
returns at most 4 sub-queries, each of length greater than 10. -/
theorem parse_sub_queries_amended (responseText : String) :
    Decomp.parseSubQueries responseText
      = (((pySplitLines (pyStrip responseText)).map Decomp.cleanLine).filter
          Decomp.keepLine).take 4
    ∧ (Decomp.parseSubQueries responseText).length ≤ 4
    ∧ ∀ q ∈ Decomp.parseSubQueries responseText, 10 < q.length := by
  refine ⟨?_, ?_, ?_⟩
  · simp [Decomp.parseSubQueries, Decomp.parse_foldl_filter]
  · simp only [Decomp.parseSubQueries, Decomp.parse_foldl_filter, List.nil_append]
    exact List.length_take_le 4 _
  · intro q hq
    simp only [Decomp.parseSubQueries, Decomp.parse_foldl_filter, List.nil_append] at hq
    have hq' := List.mem_of_mem_take hq
    have := List.of_mem_filter hq'
    simp only [Decomp.keepLine, Bool.and_eq_true, decide_eq_true_eq] at this
    exact this.2

namespace Retrieval

/-- `RetrievalResult` (src/agents/retriever_agent.py): scores (Python floats)
are modelled as rationals; the payload metadata dict as a key/value list. -/
structure RetrievalResult where
  chunk_id : String
  doc_id : String
  text : String
  score : ℚ
  language : String
  page_num : Int
  metadata : List (String × String)
deriving DecidableEq

/-- One insertion step of a stable descending sort on `key`. -/
def insertDescBy {α : Type} (key : α → ℚ) (a : α) : List α → List α
  | [] => [a]
  | x :: xs => if key x ≤ key a then a :: x :: xs else x :: insertDescBy key a xs

/-- Python `sorted(l, key=key, reverse=True)`: the stable descending sort
(insertion sort is stable, so it computes the same list Timsort does). -/
def sortDescBy {α : Type} (key : α → ℚ) : List α → List α
  | [] => []
  | a :: xs => insertDescBy key a (sortDescBy key xs)

theorem insertDescBy_perm {α : Type} (key : α → ℚ) (a : α) (l : List α) :
    List.Perm (insertDescBy key a l) (a :: l) := by
  induction l with
  | nil => rfl
  | cons x xs ih =>
    by_cases h : key x ≤ key a
    · simp [insertDescBy, h]
    · simp only [insertDescBy, if_neg h]
      exact (ih.cons x).trans (List.Perm.swap a x xs)

theorem sortDescBy_perm {α : Type} (key : α → ℚ) (l : List α) :
    List.Perm (sortDescBy key l) l := by
  induction l with
  | nil => rfl
  | cons a xs ih => exact (insertDescBy_perm key a (sortDescBy key xs)).trans (ih.cons a)

theorem insertDescBy_sorted {α : Type} (key : α → ℚ) (a : α) (l : List α)
    (h : List.Pairwise (fun x y => key y ≤ key x) l) :
    List.Pairwise (fun x y => key y ≤ key x) (insertDescBy key a l) := by
  induction l with
  | nil => simp [insertDescBy]
  | cons x xs ih =>
    rcases List.pairwise_cons.mp h with ⟨hx, hxs⟩
    by_cases hle : key x ≤ key a
    · simp only [insertDescBy, if_pos hle]
      refine List.pairwise_cons.mpr ⟨?_, h⟩
      intro y hy
      rcases List.mem_cons.mp hy with hy | hy
      · subst hy; exact hle
      · exact le_trans (hx y hy) hle
    · simp only [insertDescBy, if_neg hle]
      refine List.pairwise_cons.mpr ⟨?_, ih hxs⟩
      intro y hy
      have hperm := insertDescBy_perm key a xs
      rcases List.mem_cons.mp ((hperm.mem_iff).mp hy) with hy | hy
      · subst hy; exact le_of_lt (lt_of_not_le hle)
      · exact hx y hy

theorem sortDescBy_sorted {α : Type} (key : α → ℚ) (l : List α) :
    List.Pairwise (fun x y => key y ≤ key x) (sortDescBy key l) := by
  induction l with
  | nil => simp [sortDescBy]
  | cons a xs ih => exact insertDescBy_sorted key a _ ih

/-- `result_map`: a Python dict keyed by `chunk_id`, insertion-ordered. -/
abbrev RMap := List (String × RetrievalResult)

/-- `chunk_id in result_map`. -/
def mapHas (m : RMap) (k : String) : Bool := m.any (fun p => p.1 == k)

/-- `result_map[k] = v`: overwrite in place, or append a new key at the end. -/
def mapSet (m : RMap) (k : String) (v : RetrievalResult) : RMap :=
  if mapHas m k then m.map (fun p => if p.1 == k then (p.1, v) else p)
  else m ++ [(k, v)]

/-- `result_map[k].score += delta`. -/
def mapAddScore (m : RMap) (k : String) (delta : ℚ) : RMap :=
  m.map (fun p => if p.1 == k then (p.1, { p.2 with score := p.2.score + delta }) else p)

/-- The dense loop body of the weighted branch of `fuse_results`:
`result_map[result.chunk_id] = RetrievalResult(..., score=score*dense_weight)`. -/
def denseInsert (dw : ℚ) (m : RMap) (r : RetrievalResult) : RMap :=
  mapSet m r.chunk_id { r with score := r.score * dw }

/-- The sparse loop body of the weighted branch of `fuse_results`: add
`score * keyword_weight` to an existing entry, else insert the weighted term. -/
def sparseInsert (kw : ℚ) (m : RMap) (r : RetrievalResult) : RMap :=
  if mapHas m r.chunk_id then mapAddScore m r.chunk_id (r.score * kw)
  else m ++ [(r.chunk_id, { r with score := r.score * kw })]

/-- The weighted branch of `RetrieverAgent.fuse_results`: dense entries enter
with `score * dense_weight`; sparse entries add `score * keyword_weight` to an
existing entry or enter with only that term; then a stable descending sort. -/
def fuseWeighted (dense sparse : List RetrievalResult) (dw kw : ℚ) :
    List RetrievalResult :=
  let m1 := dense.foldl (denseInsert dw) []
  let m2 := sparse.foldl (sparseInsert kw) m1
  sortDescBy (fun r => r.score) (m2.map Prod.snd)

/-- The RRF branch of `fuse_results`: `1 / (60 + rank + 1)` per list, ranks
0-based, summed for a chunk present in both. -/
def fuseRRF (dense sparse : List RetrievalResult) : List RetrievalResult :=
  let m1 := dense.enum.foldl (fun m p =>
    mapSet m p.2.chunk_id { p.2 with score := 1 / (60 + (p.1 : ℚ) + 1) }) []
  let m2 := sparse.enum.foldl (fun m p =>
    if mapHas m p.2.chunk_id then mapAddScore m p.2.chunk_id (1 / (60 + (p.1 : ℚ) + 1))
    else m ++ [(p.2.chunk_id, { p.2 with score := 1 / (60 + (p.1 : ℚ) + 1) })]) m1
  sortDescBy (fun r => r.score) (m2.map Prod.snd)

/-- `RetrieverAgent.fuse_results`: dispatch on the configured method. -/
def fuseResults (dense sparse : List RetrievalResult) (method : String)
    (dw kw : ℚ) : List RetrievalResult :=
  if method = "weighted" then fuseWeighted dense sparse dw kw
  else fuseRRF dense sparse

/-- The scores the fused output carries for a given `chunk_id`. -/
def scoresOf (c : String) (l : List RetrievalResult) : List ℚ :=
  (l.filter (fun r => r.chunk_id == c)).map (fun r => r.score)

/-- The scores a result map carries under a given key. -/
def keyScores (c : String) (m : RMap) : List ℚ :=
  (m.filter (fun p => p.1 == c)).map (fun p => p.2.score)

theorem keyScores_append (c : String) (m m' : RMap) :
    keyScores c (m ++ m') = keyScores c m ++ keyScores c m' := by
  simp [keyScores, List.filter_append]

theorem keyScores_nil_of_not_has {m : RMap} {c : String}
    (h : mapHas m c = false) : keyScores c m = [] := by
  rw [mapHas, List.any_eq_false] at h
  simp only [keyScores, List.map_eq_nil_iff, List.filter_eq_nil_iff]
  intro p hp
  exact h p hp

theorem keyScores_cons (c a : String) (v : RetrievalResult) (ps : RMap) :
    keyScores c ((a, v) :: ps)
      = if a = c then v.score :: keyScores c ps else keyScores c ps := by
  by_cases h : a = c <;> simp [keyScores, List.filter_cons, h]

theorem mapAddScore_cons (a : String) (v : RetrievalResult) (ps : RMap)
    (k : String) (delta : ℚ) :
    mapAddScore ((a, v) :: ps) k delta
      = (if a = k then (a, { v with score := v.score + delta }) else (a, v))
          :: mapAddScore ps k delta := by
  by_cases h : a = k <;> simp [mapAddScore, h]

theorem mapHas_append (m m' : RMap) (c : String) :
    mapHas (m ++ m') c = (mapHas m c || mapHas m' c) := by
  simp [mapHas, List.any_append]

theorem mapHas_single (k : String) (v : RetrievalResult) (c : String) :
    mapHas [(k, v)] c = (k == c) := by
  simp [mapHas]

theorem keyScores_single_ne {k : String} {v : RetrievalResult} {c : String}
    (h : k ≠ c) : keyScores c [(k, v)] = [] := by
  simp [keyScores, List.filter_cons, h]

theorem keyScores_single_eq (c : String) (v : RetrievalResult) :
    keyScores c [(c, v)] = [v.score] := by
  simp [keyScores, List.filter_cons]

theorem denseFold_eq (dw : ℚ) (dense : List RetrievalResult) (m : RMap)
    (hfresh : ∀ r ∈ dense, mapHas m r.chunk_id = false)
    (hnd : (dense.map (fun r => r.chunk_id)).Nodup) :
    dense.foldl (denseInsert dw) m
      = m ++ dense.map (fun r => (r.chunk_id, { r with score := r.score * dw })) := by
  induction dense generalizing m with
  | nil => simp
  | cons r rs ih =>
    rw [List.map_cons, List.nodup_cons] at hnd
    have h0 : mapHas m r.chunk_id = false := hfresh r (List.mem_cons_self r rs)
    have hstep : denseInsert dw m r
        = m ++ [(r.chunk_id, { r with score := r.score * dw })] := by
      simp [denseInsert, mapSet, h0]
    rw [List.foldl_cons, hstep]
    rw [ih _ ?_ hnd.2]
    · simp [List.append_assoc]
    · intro r' hr'
      rw [mapHas_append, hfresh r' (List.mem_cons_of_mem r hr'), mapHas_single,
        Bool.false_or]
      have : r'.chunk_id ∈ rs.map (fun r => r.chunk_id) :=
        List.mem_map.mpr ⟨r', hr', rfl⟩
      simp only [beq_eq_false_iff_ne, ne_eq]
      intro heq
      exact hnd.1 (heq ▸ this)

theorem keyScores_map_pairs (c : String) (f : RetrievalResult → RetrievalResult)
    (dense : List RetrievalResult) :
    keyScores c (dense.map (fun r => (r.chunk_id, f r)))
      = (dense.filter (fun r => r.chunk_id == c)).map (fun r => (f r).score) := by
  induction dense with
  | nil => simp [keyScores]
  | cons r rs ih =>
    by_cases h : r.chunk_id = c
    · simp [keyScores, List.filter_cons, h] at ih ⊢
      exact ih
    · simp [keyScores, List.filter_cons, h] at ih ⊢
      exact ih

theorem filter_key_singleton {dense : List RetrievalResult} {rd : RetrievalResult}
    (hmem : rd ∈ dense) (hnd : (dense.map (fun r => r.chunk_id)).Nodup) :
    dense.filter (fun r => r.chunk_id == rd.chunk_id) = [rd] := by
  induction dense with
  | nil => cases hmem
  | cons x xs ih =>
    rw [List.map_cons, List.nodup_cons] at hnd
    rcases List.mem_cons.mp hmem with h | h
    · subst h
      rw [List.filter_cons, if_pos (by simp)]
      have : xs.filter (fun r => r.chunk_id == rd.chunk_id) = [] := by
        rw [List.filter_eq_nil_iff]
        intro r hr
        simp only [beq_iff_eq]
        intro heq
        exact hnd.1 (heq ▸ List.mem_map.mpr ⟨r, hr, rfl⟩)
      rw [this]
    · have hne : x.chunk_id ≠ rd.chunk_id := by
        intro heq
        exact hnd.1 (heq ▸ List.mem_map.mpr ⟨rd, h, rfl⟩)
      rw [List.filter_cons, if_neg (by simpa using hne)]
      exact ih h hnd.2

theorem keyScores_mapAddScore_other {c k : String} (hne : k ≠ c) (m : RMap)
    (delta : ℚ) : keyScores c (mapAddScore m k delta) = keyScores c m := by
  induction m with
  | nil => simp [mapAddScore, keyScores]
  | cons p ps ih =>
    obtain ⟨a, v⟩ := p
    rw [mapAddScore_cons]
    by_cases h : a = k
    · have hac : a ≠ c := by rw [h]; exact hne
      rw [if_pos h, keyScores_cons, if_neg hac, keyScores_cons, if_neg hac]
      exact ih
    · rw [if_neg h, keyScores_cons, keyScores_cons]
      by_cases hac : a = c
      · rw [if_pos hac, if_pos hac, ih]
      · rw [if_neg hac, if_neg hac]
        exact ih

theorem keyScores_mapAddScore_self (c : String) (m : RMap) (delta : ℚ) :
    keyScores c (mapAddScore m c delta) = (keyScores c m).map (· + delta) := by
  induction m with
  | nil => simp [mapAddScore, keyScores]
  | cons p ps ih =>
    obtain ⟨a, v⟩ := p
    rw [mapAddScore_cons]
    by_cases h : a = c
    · rw [if_pos h, keyScores_cons, if_pos h, keyScores_cons, if_pos h,
        List.map_cons, ih]
    · rw [if_neg h, keyScores_cons, if_neg h, keyScores_cons, if_neg h, ih]

theorem keys_mapAddScore (m : RMap) (k : String) (delta : ℚ) :
    (mapAddScore m k delta).map Prod.fst = m.map Prod.fst := by
  simp only [mapAddScore, List.map_map]
  congr 1
  funext p
  by_cases h : p.1 = k <;> simp [h]

theorem mapHas_keys (m : RMap) (c : String) :
    mapHas m c = (m.map Prod.fst).any (fun k => k == c) := by
  induction m with
  | nil => rfl
  | cons p ps ih => simp [mapHas, List.any_cons] at ih ⊢; rw [ih]

theorem mapHas_mapAddScore (m : RMap) (k c : String) (delta : ℚ) :
    mapHas (mapAddScore m k delta) c = mapHas m c := by
  rw [mapHas_keys, keys_mapAddScore, ← mapHas_keys]

theorem keyScores_sparseInsert_other {kw : ℚ} {m : RMap} {r : RetrievalResult}
    {c : String} (hne : r.chunk_id ≠ c) :
    keyScores c (sparseInsert kw m r) = keyScores c m := by
  unfold sparseInsert
  by_cases h : mapHas m r.chunk_id = true
  · rw [if_pos h]
    exact keyScores_mapAddScore_other hne m _
  · rw [if_neg h, keyScores_append, keyScores_single_ne hne, List.append_nil]

theorem mapHas_sparseInsert_other {kw : ℚ} {m : RMap} {r : RetrievalResult}
    {c : String} (hne : r.chunk_id ≠ c) :
    mapHas (sparseInsert kw m r) c = mapHas m c := by
  unfold sparseInsert
  by_cases h : mapHas m r.chunk_id = true
  · rw [if_pos h, mapHas_mapAddScore]
  · rw [if_neg h, mapHas_append, mapHas_single]
    have : (r.chunk_id == c) = false := by simp [hne]
    rw [this, Bool.or_false]

theorem sparseFold_away (kw : ℚ) (sparse : List RetrievalResult) (m : RMap)
    (c : String) (h : ∀ r ∈ sparse, r.chunk_id ≠ c) :
    keyScores c (sparse.foldl (sparseInsert kw) m) = keyScores c m := by
  induction sparse generalizing m with
  | nil => simp
  | cons r rs ih =>
    rw [List.foldl_cons,
      ih _ (fun r' hr' => h r' (List.mem_cons_of_mem r hr')),
      keyScores_sparseInsert_other (h r (List.mem_cons_self r rs))]

theorem sparseFold_at (kw : ℚ) (sparse : List RetrievalResult) (m : RMap)
    (rs : RetrievalResult) (hmem : rs ∈ sparse)
    (hnd : (sparse.map (fun r => r.chunk_id)).Nodup) :
    keyScores rs.chunk_id (sparse.foldl (sparseInsert kw) m)
      = if mapHas m rs.chunk_id = true
        then (keyScores rs.chunk_id m).map (· + rs.score * kw)
        else [rs.score * kw] := by
  induction sparse generalizing m with
  | nil => cases hmem
  | cons r rest ih =>
    rw [List.map_cons, List.nodup_cons] at hnd
    rcases List.mem_cons.mp hmem with h | h
    · subst h
      have haway : ∀ r' ∈ rest, r'.chunk_id ≠ rs.chunk_id := by
        intro r' hr' heq
        exact hnd.1 (heq ▸ List.mem_map.mpr ⟨r', hr', rfl⟩)
      rw [List.foldl_cons, sparseFold_away kw rest _ _ haway]
      unfold sparseInsert
      by_cases hhas : mapHas m rs.chunk_id = true
      · rw [if_pos hhas, if_pos hhas, keyScores_mapAddScore_self]
      · rw [if_neg hhas, if_neg hhas, keyScores_append,
          keyScores_nil_of_not_has (by simpa using hhas),
          List.nil_append, keyScores_single_eq]
    · have hne : r.chunk_id ≠ rs.chunk_id := by
        intro heq
        exact hnd.1 (heq ▸ List.mem_map.mpr ⟨rs, h, rfl⟩)
      rw [List.foldl_cons, ih _ h hnd.2, mapHas_sparseInsert_other hne,
        keyScores_sparseInsert_other hne]

/-- Every entry of a result map built by the fusion loops is keyed by its
value's `chunk_id`. -/
def WfMap (m : RMap) : Prop := ∀ p ∈ m, p.1 = p.2.chunk_id

theorem wf_denseMap (dw : ℚ) (dense : List RetrievalResult) :
    WfMap (dense.map (fun r => (r.chunk_id, { r with score := r.score * dw }))) := by
  intro p hp
  rcases List.mem_map.mp hp with ⟨r, _, rfl⟩
  rfl

theorem wf_sparseInsert {kw : ℚ} {m : RMap} (hm : WfMap m) (r : RetrievalResult) :
    WfMap (sparseInsert kw m r) := by
  unfold sparseInsert
  by_cases h : mapHas m r.chunk_id = true
  · rw [if_pos h]
    intro p hp
    rcases List.mem_map.mp hp with ⟨q, hq, rfl⟩
    by_cases hq1 : q.1 = r.chunk_id
    · have hb : (q.1 == r.chunk_id) = true := by simp [hq1]
      rw [if_pos hb]
      exact hm q hq
    · have hb : (q.1 == r.chunk_id) = false := by simp [hq1]
      rw [if_neg (by simp [hb])]
      exact hm q hq
  · rw [if_neg h]
    intro p hp
    rcases List.mem_append.mp hp with hp | hp
    · exact hm p hp
    · rcases List.mem_singleton.mp hp with rfl
      rfl

theorem wf_sparseFold {kw : ℚ} (sparse : List RetrievalResult) {m : RMap}
    (hm : WfMap m) : WfMap (sparse.foldl (sparseInsert kw) m) := by
  induction sparse generalizing m with
  | nil => simpa using hm
  | cons r rest ih => exact ih (wf_sparseInsert hm r)

theorem scoresOf_cons (c : String) (r : RetrievalResult)
    (l : List RetrievalResult) :
    scoresOf c (r :: l)
      = if r.chunk_id = c then r.score :: scoresOf c l else scoresOf c l := by
  by_cases h : r.chunk_id = c <;> simp [scoresOf, List.filter_cons, h]

theorem scoresOf_map_snd {m : RMap} (hm : WfMap m) (c : String) :
    scoresOf c (m.map Prod.snd) = keyScores c m := by
  induction m with
  | nil => simp [scoresOf, keyScores]
  | cons p ps ih =>
    obtain ⟨a, v⟩ := p
    have hp : a = v.chunk_id := hm (a, v) (List.mem_cons_self (a, v) ps)
    have hps : WfMap ps := fun q hq => hm q (List.mem_cons_of_mem (a, v) hq)
    rw [List.map_cons, scoresOf_cons, keyScores_cons]
    by_cases h : a = c
    · rw [if_pos (by rw [← hp]; exact h), if_pos h, ih hps]
    · rw [if_neg (by rw [← hp]; exact h), if_neg h, ih hps]

theorem scoresOf_sortDescBy (c : String) (l : List RetrievalResult) :
    List.Perm (scoresOf c (sortDescBy (fun r => r.score) l)) (scoresOf c l) := by
  exact ((sortDescBy_perm (fun r => r.score) l).filter _).map _

theorem keys_m1 (dw : ℚ) (dense : List RetrievalResult) :
    (dense.map (fun r => (r.chunk_id, { r with score := r.score * dw }))).map Prod.fst
      = dense.map (fun r => r.chunk_id) := by
  simp [List.map_map]

/-! `RetrieverAgent.sparse_search`: the BM25 corpus is the scrolled payload
store (each document a payload dict), and the external `BM25Okapi.get_scores`
call is abstracted as one score per corpus document. -/

/-- A payload dict from the vector store scroll. -/
abbrev Payload := List (String × String)

/-- `all(doc.get(k) == v for k, v in metadata_filter.items())`. -/
def docMatches (metadata_filter : Payload) (doc : Payload) : Bool :=
  metadata_filter.all (fun p => doc.lookup p.1 == some p.2)

/-- `sorted(range(len(scores)), key=lambda i: scores[i], reverse=True)[:top_k]`:
the global top-`top_k` document indices by BM25 score, before any filter. -/
def sparseTopIndices (scores : List ℚ) (top_k : Nat) : List Nat :=
  (sortDescBy (fun i => scores.getD i 0) (List.range scores.length)).take top_k

/-- `RetrieverAgent.sparse_search`: select the global top-`top_k` indices by
score, then apply the metadata filter as a post-filter, then truncate again. -/
def sparseSearch (docs : List Payload) (scores : List ℚ) (top_k : Nat)
    (metadata_filter : Payload) (enable_metadata_filter : Bool) :
    List (Payload × ℚ) :=
  let top := sparseTopIndices scores top_k
  let results := top.foldl (fun acc idx =>
    let doc := docs.getD idx []
    if metadata_filter ≠ [] ∧ enable_metadata_filter then
      if docMatches metadata_filter doc then acc ++ [(doc, scores.getD idx 0)]
      else acc
    else acc ++ [(doc, scores.getD idx 0)]) []
  results.take top_k

end Retrieval

/-- Claim C5: in the weighted fusion of `fuse_results`, a `chunk_id` present in
both candidate lists carries combined score
`dense_score*dense_weight + sparse_score*keyword_weight`, a `chunk_id` present
in only one list carries only that single weighted term, and the fused output
is sorted descending on the combined score. -/
theorem fuse_weighted_ok (dense sparse : List Retrieval.RetrievalResult) (dw kw : ℚ)
    (hd : (dense.map (fun r => r.chunk_id)).Nodup)
    (hs : (sparse.map (fun r => r.chunk_id)).Nodup) :
    (∀ rd ∈ dense, ∀ rs ∈ sparse, rd.chunk_id = rs.chunk_id →
      Retrieval.scoresOf rd.chunk_id (Retrieval.fuseWeighted dense sparse dw kw)
        = [rd.score * dw + rs.score * kw])
    ∧ (∀ rd ∈ dense, (∀ rs ∈ sparse, rs.chunk_id ≠ rd.chunk_id) →
      Retrieval.scoresOf rd.chunk_id (Retrieval.fuseWeighted dense sparse dw kw)
        = [rd.score * dw])
    ∧ (∀ rs ∈ sparse, (∀ rd ∈ dense, rd.chunk_id ≠ rs.chunk_id) →
      Retrieval.scoresOf rs.chunk_id (Retrieval.fuseWeighted dense sparse dw kw)
        = [rs.score * kw])
    ∧ List.Pairwise (fun a b => b.score ≤ a.score)
        (Retrieval.fuseWeighted dense sparse dw kw) := by
  classical
  open Retrieval in
  have hm1eq : dense.foldl (denseInsert dw) []
      = dense.map (fun r => (r.chunk_id, { r with score := r.score * dw })) := by
    rw [denseFold_eq dw dense [] (fun r _ => rfl) hd, List.nil_append]
  have hfw : fuseWeighted dense sparse dw kw
      = sortDescBy (fun r => r.score)
          ((sparse.foldl (sparseInsert kw) (dense.foldl (denseInsert dw) [])).map
            Prod.snd) := rfl
  have hwf : WfMap (sparse.foldl (sparseInsert kw) (dense.foldl (denseInsert dw) [])) := by
    refine wf_sparseFold sparse ?_
    rw [hm1eq]
    exact wf_denseMap dw dense
  have htrans : ∀ c x,
      keyScores c (sparse.foldl (sparseInsert kw) (dense.foldl (denseInsert dw) [])) = [x] →
      scoresOf c (fuseWeighted dense sparse dw kw) = [x] := by
    intro c x hkey
    have h1 : scoresOf c
        ((sparse.foldl (sparseInsert kw) (dense.foldl (denseInsert dw) [])).map Prod.snd)
        = [x] := by rw [scoresOf_map_snd hwf, hkey]
    have h2 := scoresOf_sortDescBy c
      ((sparse.foldl (sparseInsert kw) (dense.foldl (denseInsert dw) [])).map Prod.snd)
    rw [h1] at h2
    rw [hfw]
    exact List.perm_singleton.mp h2
  have hkey1 : ∀ rd ∈ dense,
      keyScores rd.chunk_id (dense.foldl (denseInsert dw) []) = [rd.score * dw] := by
    intro rd hrd
    rw [hm1eq, keyScores_map_pairs, filter_key_singleton hrd hd, List.map_cons,
      List.map_nil]
  have hhas1 : ∀ rd ∈ dense,
      mapHas (dense.foldl (denseInsert dw) []) rd.chunk_id = true := by
    intro rd hrd
    rw [mapHas_keys, hm1eq, keys_m1, List.any_eq_true]
    exact ⟨rd.chunk_id, List.mem_map.mpr ⟨rd, hrd, rfl⟩, by simp⟩
  have hhasnot : ∀ c, (∀ rd ∈ dense, rd.chunk_id ≠ c) →
      mapHas (dense.foldl (denseInsert dw) []) c = false := by
    intro c hc
    rw [mapHas_keys, hm1eq, keys_m1, List.any_eq_false]
    intro k hk
    rcases List.mem_map.mp hk with ⟨rd, hrd, rfl⟩
    simpa using hc rd hrd
  refine ⟨?_, ?_, ?_, ?_⟩
  · intro rd hrd rs hrs heq
    refine htrans _ _ ?_
    rw [heq, sparseFold_at kw sparse _ rs hrs hs, ← heq,
      if_pos (hhas1 rd hrd), hkey1 rd hrd, List.map_cons, List.map_nil]
  · intro rd hrd hnone
    refine htrans _ _ ?_
    rw [sparseFold_away kw sparse _ rd.chunk_id hnone, hkey1 rd hrd]
  · intro rs hrs hnone
    refine htrans _ _ ?_
    rw [sparseFold_at kw sparse _ rs hrs hs,
      if_neg (by rw [hhasnot rs.chunk_id hnone]; simp)]
  · rw [hfw]
    exact Retrieval.sortDescBy_sorted _ _

/-- Witness for claim C5 at concrete inputs: `"c1"` appears in both lists with
dense score 2 and sparse score 5; with `dense_weight = 2` and
`keyword_weight = 3` its fused score list is exactly `[2*2 + 5*3]`. -/
theorem fuse_weighted_ok_witness :
    Retrieval.scoresOf "c1"
      (Retrieval.fuseWeighted
        [⟨"c1", "d1", "t1", 2, "en", 1, []⟩, ⟨"c2", "d1", "t2", 3, "en", 1, []⟩]
        [⟨"c1", "d1", "t1", 5, "en", 1, []⟩, ⟨"c3", "d2", "t3", 7, "en", 2, []⟩]
        2 3)
      = [(2 : ℚ) * 2 + 5 * 3] :=
  (fuse_weighted_ok
    [⟨"c1", "d1", "t1", 2, "en", 1, []⟩, ⟨"c2", "d1", "t2", 3, "en", 1, []⟩]
    [⟨"c1", "d1", "t1", 5, "en", 1, []⟩, ⟨"c3", "d2", "t3", 7, "en", 2, []⟩]
    2 3 (by decide) (by decide)).1
    ⟨"c1", "d1", "t1", 2, "en", 1, []⟩ (List.mem_cons_self _ _)
    ⟨"c1", "d1", "t1", 5, "en", 1, []⟩ (List.mem_cons_self _ _) rfl

/-- Claim C10: `sparse_search` picks the global top-`top_k` indices by BM25
score before filtering, so there is a corpus, score assignment, `top_k` and
metadata filter for which at least `top_k` documents match the filter yet the
search returns fewer than `top_k` results (here: zero). -/
theorem sparse_search_postfilter_shortfall :
    ∃ (docs : List Retrieval.Payload) (scores : List ℚ) (top_k : Nat)
      (mf : Retrieval.Payload),
      top_k ≤ (docs.filter (Retrieval.docMatches mf)).length
      ∧ (Retrieval.sparseSearch docs scores top_k mf true).length < top_k := by
  refine ⟨[[("chunk_id", "c0"), ("language", "en")],
           [("chunk_id", "c1"), ("language", "hi")]],
          [2, 1], 1, [("language", "hi")], ?_, ?_⟩ <;> decide

/-! ### Reranker agent (src/agents/reranker_agent.py). -/

namespace Rerank

open Retrieval

/-- The reranker's configuration slice (src/common/config.py defaults:
`enable_rerank=True`, `rerank_backend="gemini"`, `rerank_top_k=30`). -/
structure RerankConfig where
  enable_rerank : Bool
  rerank_backend : String
  rerank_top_k : Nat
deriving DecidableEq

/-- `top_k = top_k or self.rerank_top_k` (Python `or` on an int-or-None). -/
def effTopK (cfg : RerankConfig) (top_k : Option Nat) : Nat :=
  match top_k with
  | none => cfg.rerank_top_k
  | some n => if n = 0 then cfg.rerank_top_k else n

/-- `indices = [int(i) for i in indices_str.split() if i.isdigit()]` applied to
the first stripped line of the stripped response. -/
def parsedIndices (response : String) : List Nat :=
  let firstLine := pyStrip (((pySplitLines (pyStrip response)).headD ""))
  (pySplitWs firstLine).filterMap
    (fun t => if pyIsDigit t then some (natOfDigits t.data) else none)

/-- `RerankerAgent._parse_reranking_response`: reorder by the parsed indices
(out-of-range ones skipped), then append every result whose position the judge
omitted, in original order. -/
def parseRerankingResponse (response : String) (results : List RetrievalResult) :
    List RetrievalResult :=
  let indices := parsedIndices response
  let reranked := indices.filterMap (fun idx => results.get? idx)
  let missing := (results.enum.filter (fun p => !(indices.contains p.1))).map Prod.snd
  reranked ++ missing

/-- `RerankerAgent.rerank_with_gemini`, with the external judge call abstracted
as its outcome: `none` when the call raised, otherwise the response text. All
failure paths are caught in the source and degrade to `results[:top_k]`. -/
def rerankWithGemini (cfg : RerankConfig) (results : List RetrievalResult)
    (top_k : Option Nat) (judge : Option String) : List RetrievalResult :=
  let k := effTopK cfg top_k
  if results = [] then []
  else
    match judge with
    | none => results.take k
    | some resp =>
      if resp = "" then results.take k
      else (parseRerankingResponse resp results).take k

/-- `RerankerAgent.rerank_with_cpu`: keyword-overlap count added to the
original score (`0.1` per overlapping token), stable descending sort. -/
def rerankWithCpu (cfg : RerankConfig) (query : String)
    (results : List RetrievalResult) (top_k : Option Nat) : List RetrievalResult :=
  let k := effTopK cfg top_k
  if results = [] then []
  else
    let qset := (pySplitWs (pyLower query)).dedup
    let scored := results.map (fun r =>
      let tset := (pySplitWs (pyLower r.text)).dedup
      let overlap := (qset.filter (fun w => tset.contains w)).length
      { r with score := r.score + (overlap : ℚ) * (1 / 10) })
    (sortDescBy (fun r => r.score) scored).take k

/-- `RerankerAgent.rerank`: dispatch on configuration. -/
def rerank (cfg : RerankConfig) (query : String) (results : List RetrievalResult)
    (top_k : Option Nat) (judge : Option String) : List RetrievalResult :=
  if cfg.enable_rerank = false then
    results.take (match top_k with
      | none => results.length
      | some n => if n = 0 then results.length else n)
  else if cfg.rerank_backend = "gemini" then rerankWithGemini cfg results top_k judge
  else rerankWithCpu cfg query results top_k

theorem parse_of_no_indices (response : String) (results : List RetrievalResult)
    (h : parsedIndices response = []) :
    parseRerankingResponse response results = results := by
  simp only [parseRerankingResponse, h, List.filterMap_nil, List.nil_append]
  have : (results.enum.filter (fun p => !(([] : List Nat).contains p.1))) = results.enum := by
    simp [List.filter_eq_self]
  rw [this, List.enum_map_snd]

end Rerank

/-- Claim C6: when the judge call fails, returns an empty response, or returns
a response from which no index parses, `rerank` returns the input truncated to
`top_k` in its original order (the source catches every such failure; nothing
propagates). -/
theorem rerank_failure_keeps_order (cfg : Rerank.RerankConfig) (query : String)
    (results : List Retrieval.RetrievalResult) (n : Nat) (judge : Option String)
    (henable : cfg.enable_rerank = true) (hbackend : cfg.rerank_backend = "gemini")
    (hn : 0 < n)
    (hfail : judge = none ∨ judge = some "" ∨
      ∃ resp, judge = some resp ∧ Rerank.parsedIndices resp = []) :
    Rerank.rerank cfg query results (some n) judge = results.take n := by
  have hk : Rerank.effTopK cfg (some n) = n := by
    simp [Rerank.effTopK, Nat.pos_iff_ne_zero.mp hn]
  have hgem : Rerank.rerank cfg query results (some n) judge
      = Rerank.rerankWithGemini cfg results (some n) judge := by
    simp [Rerank.rerank, henable, hbackend]
  rw [hgem]
  by_cases hres : results = []
  · subst hres; simp [Rerank.rerankWithGemini]
  · rcases hfail with h | h | ⟨resp, hj, hparse⟩
    · subst h; simp [Rerank.rerankWithGemini, hres, hk]
    · subst h; simp [Rerank.rerankWithGemini, hres, hk]
    · subst hj
      by_cases hresp : resp = ""
      · simp [Rerank.rerankWithGemini, hres, hk, hresp]
      · simp [Rerank.rerankWithGemini, hres, hk, hresp,
          Rerank.parse_of_no_indices resp results hparse]

/-- Witness for claim C6 at a concrete input: a three-element result list, a
judge response with no parseable index, `top_k = 2`. -/
theorem rerank_failure_keeps_order_witness :
    Rerank.rerank ⟨true, "gemini", 30⟩ "q"
        [⟨"c1", "d", "t", 1, "en", 0, []⟩, ⟨"c2", "d", "t", 2, "en", 0, []⟩,
          ⟨"c3", "d", "t", 3, "en", 0, []⟩]
        (some 2) (some "the judge rambled with no numbers")
      = [⟨"c1", "d", "t", 1, "en", 0, []⟩, ⟨"c2", "d", "t", 2, "en", 0, []⟩] := by
  have h := rerank_failure_keeps_order ⟨true, "gemini", 30⟩ "q"
    [⟨"c1", "d", "t", 1, "en", 0, []⟩, ⟨"c2", "d", "t", 2, "en", 0, []⟩,
      ⟨"c3", "d", "t", 3, "en", 0, []⟩]
    2 (some "the judge rambled with no numbers") rfl rfl (by decide)
    (Or.inr (Or.inr ⟨"the judge rambled with no numbers", rfl, by decide⟩))
  simpa using h

/-! ### Job store (src/common/storage.py) and its driving loop
(src/agents/ingestion_agent.py, src/main.py). -/

namespace Jobs

/-- `JobStatus` (src/common/storage.py). -/
inductive JobStatus where
  | pending
  | processing
  | completed
  | failed
deriving DecidableEq

/-- One row of the `jobs` table (`doc_id` is declared `UNIQUE`). -/
structure JobRow where
  doc_id : String
  file_path : String
  language : String
  status : JobStatus
  error_message : Option String
  metadata : String
deriving DecidableEq

/-- The row `add_job` inserts: status starts as `pending`. -/
def mkJobRow (doc_id file_path language metadata : String) : JobRow :=
  { doc_id := doc_id, file_path := file_path, language := language,
    status := JobStatus.pending, error_message := none, metadata := metadata }

/-- `SQLiteStorage.add_job`: a plain `INSERT` into a table whose `doc_id`
column is `UNIQUE`, so a duplicate `doc_id` raises an integrity error and
inserts nothing. -/
def addJob (table : List JobRow) (doc_id file_path language metadata : String) :
    Except String (List JobRow) :=
  if table.any (fun r => r.doc_id == doc_id) then
    Except.error "UNIQUE constraint failed: jobs.doc_id"
  else Except.ok (table ++ [mkJobRow doc_id file_path language metadata])

end Jobs

/-- Claim C2 (counterexample): a second `add_job` with the same `doc_id` does
not behave as an upsert-ignore; it fails with a uniqueness violation. -/
theorem add_job_second_call_errors :
    Jobs.addJob [] "en_doc_ab12cd34" "data/processing/en_doc_ab12cd34.pdf" "en" "{}"
      = Except.ok [Jobs.mkJobRow "en_doc_ab12cd34"
          "data/processing/en_doc_ab12cd34.pdf" "en" "{}"]
    ∧ Jobs.addJob [Jobs.mkJobRow "en_doc_ab12cd34"
          "data/processing/en_doc_ab12cd34.pdf" "en" "{}"]
        "en_doc_ab12cd34" "data/incoming/en/doc.pdf" "en" "{}"
      = Except.error "UNIQUE constraint failed: jobs.doc_id" :=
  ⟨rfl, rfl⟩

/-- Claim C2 (amended): calling `add_job` twice with the same derived `doc_id`
leaves exactly one row for that `doc_id`, but the second call raises a
uniqueness-violation error (the failed insert changes nothing) rather than
behaving as an upsert-ignore. -/
theorem add_job_duplicate_one_row (table : List Jobs.JobRow)
    (d f1 l1 m1 : String) (hfresh : ∀ r ∈ table, r.doc_id ≠ d) :
    Jobs.addJob table d f1 l1 m1 = Except.ok (table ++ [Jobs.mkJobRow d f1 l1 m1])
    ∧ ((table ++ [Jobs.mkJobRow d f1 l1 m1]).filter
        (fun r => r.doc_id == d)).length = 1
    ∧ ∀ f2 l2 m2, Jobs.addJob (table ++ [Jobs.mkJobRow d f1 l1 m1]) d f2 l2 m2
        = Except.error "UNIQUE constraint failed: jobs.doc_id" := by
  have hany : table.any (fun r => r.doc_id == d) = false := by
    rw [List.any_eq_false]
    intro r hr
    simpa using hfresh r hr
  have hfilter : table.filter (fun r => r.doc_id == d) = [] := by
    rw [List.filter_eq_nil_iff]
    intro r hr
    simpa using hfresh r hr
  refine ⟨?_, ?_, ?_⟩
  · simp [Jobs.addJob, hany]
  · simp [List.filter_append, hfilter, Jobs.mkJobRow]
  · intro f2 l2 m2
    have : (table ++ [Jobs.mkJobRow d f1 l1 m1]).any (fun r => r.doc_id == d) = true := by
      simp [Jobs.mkJobRow]
    simp [Jobs.addJob, this]

/-- Witness for claim C2 (amended) at a concrete input: an empty table and a
concrete document. -/
theorem add_job_duplicate_one_row_witness :
    Jobs.addJob [] "d1" "a.pdf" "en" "{}"
      = Except.ok ([] ++ [Jobs.mkJobRow "d1" "a.pdf" "en" "{}"])
    ∧ (([] ++ [Jobs.mkJobRow "d1" "a.pdf" "en" "{}"]).filter
        (fun r : Jobs.JobRow => r.doc_id == "d1")).length = 1
    ∧ ∀ f2 l2 m2, Jobs.addJob ([] ++ [Jobs.mkJobRow "d1" "a.pdf" "en" "{}"]) "d1" f2 l2 m2
        = Except.error "UNIQUE constraint failed: jobs.doc_id" :=
  add_job_duplicate_one_row [] "d1" "a.pdf" "en" "{}" (by simp)

namespace Jobs

/-- The jobs table viewed as the status map of the state machine: rows in
creation order (`created_at` is the insertion order), one status each. -/
structure QState where
  jobs : List (String × JobStatus)
  worker : Option String
deriving DecidableEq

/-- The initial state: empty table, idle worker. -/
def initQ : QState := { jobs := [], worker := none }

/-- `update_job_status`: `UPDATE jobs SET status = ? WHERE doc_id = ?`. -/
def setStatus (jobs : List (String × JobStatus)) (d : String) (st : JobStatus) :
    List (String × JobStatus) :=
  jobs.map (fun p => if p.1 == d then (p.1, st) else p)

/-- The events the system's code performs on the jobs table:
`add d` is `IngestionAgent.process_new_file` (a `get_job` existence check, then
`add_job` inserting a `pending` row); `claim` is `IngestionAgent.get_next_job`
(`get_pending_jobs(1)` in creation order, then the pending→processing update),
run only by the single `process_queue` worker when it holds no job;
`finish ok` is the end of `DocumentProcessingPipeline.process_document`, which
marks the job the worker claimed `completed` on success or `failed` on any
exception. -/
inductive Ev where
  | add (d : String)
  | claim
  | finish (ok : Bool)

/-- One step of the job-store transition system. -/
def stepQ (s : QState) (e : Ev) : QState :=
  match e with
  | Ev.add d =>
    if s.jobs.any (fun p => p.1 == d) then s
    else { s with jobs := s.jobs ++ [(d, JobStatus.pending)] }
  | Ev.claim =>
    match s.worker with
    | some _ => s
    | none =>
      match s.jobs.find? (fun p => p.2 == JobStatus.pending) with
      | none => s
      | some p => { jobs := setStatus s.jobs p.1 JobStatus.processing, worker := some p.1 }
  | Ev.finish ok =>
    match s.worker with
    | none => s
    | some d =>
      { jobs := setStatus s.jobs d (if ok then JobStatus.completed else JobStatus.failed),
        worker := none }

/-- Run a trace of events from the initial state. -/
def runQ (es : List Ev) : QState := es.foldl stepQ initQ

/-- The status the table records for a document. -/
def statusOf (s : QState) (d : String) : Option JobStatus := s.jobs.lookup d

/-- The transitions the spec allows for one document between two adjacent
observations: stay put, appear as `pending`, `pending → processing`,
`pending/processing → failed`, `processing → completed`; nothing leaves
`completed` or `failed`. -/
def allowedStep : Option JobStatus → Option JobStatus → Bool
  | none, none => true
  | none, some JobStatus.pending => true
  | some JobStatus.pending, some JobStatus.pending => true
  | some JobStatus.pending, some JobStatus.processing => true
  | some JobStatus.pending, some JobStatus.failed => true
  | some JobStatus.processing, some JobStatus.processing => true
  | some JobStatus.processing, some JobStatus.completed => true
  | some JobStatus.processing, some JobStatus.failed => true
  | some JobStatus.completed, some JobStatus.completed => true
  | some JobStatus.failed, some JobStatus.failed => true
  | _, _ => false

theorem allowedStep_refl (x : Option JobStatus) : allowedStep x x = true := by
  rcases x with _ | st
  · rfl
  · cases st <;> rfl

/-- The invariant of reachable states: `doc_id` keys are unique (the `UNIQUE`
column), and the job the worker holds is recorded as `processing`. -/
def QInv (s : QState) : Prop :=
  (s.jobs.map Prod.fst).Nodup
  ∧ ∀ d, s.worker = some d → s.jobs.lookup d = some JobStatus.processing

theorem lookup_pair_cons (d a : String) (v : JobStatus) (l : List (String × JobStatus)) :
    List.lookup d ((a, v) :: l) = if d = a then some v else List.lookup d l := by
  by_cases h : d = a
  · subst h; simp [List.lookup_cons]
  · have hb : (d == a) = false := by simp [h]
    simp [List.lookup_cons, hb, h]

theorem lookup_of_mem_nodup {l : List (String × JobStatus)} {d : String}
    {v : JobStatus} (hmem : (d, v) ∈ l) (hnd : (l.map Prod.fst).Nodup) :
    l.lookup d = some v := by
  induction l with
  | nil => cases hmem
  | cons p ps ih =>
    obtain ⟨a, b⟩ := p
    rw [List.map_cons, List.nodup_cons] at hnd
    rcases List.mem_cons.mp hmem with h | h
    · injection h with h1 h2
      subst h1; subst h2
      simp [lookup_pair_cons]
    · have hd : d ∈ ps.map Prod.fst := List.mem_map.mpr ⟨(d, v), h, rfl⟩
      have hne : d ≠ a := fun heq => hnd.1 (heq ▸ hd)
      rw [lookup_pair_cons, if_neg hne]
      exact ih h hnd.2

theorem setStatus_cons (a : String) (b : JobStatus) (ps : List (String × JobStatus))
    (k : String) (st : JobStatus) :
    setStatus ((a, b) :: ps) k st
      = (if a = k then (a, st) else (a, b)) :: setStatus ps k st := by
  by_cases h : a = k <;> simp [setStatus, h]

theorem lookup_setStatus (jobs : List (String × JobStatus)) (k d : String)
    (st : JobStatus) :
    (setStatus jobs k st).lookup d
      = if d = k then (jobs.lookup d).map (fun _ => st) else jobs.lookup d := by
  induction jobs with
  | nil => simp [setStatus]
  | cons p ps ih =>
    obtain ⟨a, b⟩ := p
    rw [setStatus_cons]
    by_cases hak : a = k
    · subst hak
      rw [if_pos rfl]
      simp only [lookup_pair_cons]
      by_cases hda : d = a
      · simp [hda]
      · simp [hda, ih]
    · rw [if_neg hak]
      simp only [lookup_pair_cons]
      by_cases hda : d = a
      · subst hda
        simp [hak]
      · simp [hda, ih]

theorem keys_setStatus (l : List (String × JobStatus)) (k : String) (st : JobStatus) :
    (setStatus l k st).map Prod.fst = l.map Prod.fst := by
  simp only [setStatus, List.map_map]
  congr 1
  funext p
  by_cases h : p.1 = k <;> simp [h]

theorem not_mem_keys_of_any_false {l : List (String × JobStatus)} {d : String}
    (h : l.any (fun p => p.1 == d) = false) : d ∉ l.map Prod.fst := by
  rw [List.any_eq_false] at h
  intro hm
  rcases List.mem_map.mp hm with ⟨p, hp, he⟩
  exact absurd (by simp [he]) (h p hp)

theorem qinv_init : QInv initQ :=
  ⟨List.nodup_nil, fun d h => by cases h⟩

theorem qinv_step {s : QState} (hinv : QInv s) (e : Ev) : QInv (stepQ s e) := by
  obtain ⟨hnd, hw⟩ := hinv
  cases e with
  | add d =>
    cases hcond : s.jobs.any (fun p => p.1 == d) with
    | true => simpa [stepQ, hcond] using ⟨hnd, hw⟩
    | false =>
      have hnotin : d ∉ s.jobs.map Prod.fst := not_mem_keys_of_any_false hcond
      constructor
      · simp only [stepQ, hcond, Bool.false_eq_true, if_false]
        rw [List.map_append]
        refine List.Nodup.append hnd (List.nodup_singleton d) ?_
        intro a ha had
        simp only [List.map_cons, List.map_nil, List.mem_singleton] at had
        exact hnotin (had ▸ ha)
      · intro d' hd'
        simp only [stepQ, hcond, Bool.false_eq_true, if_false] at hd' ⊢
        have := hw d' hd'
        rw [List.lookup_append, this]
        rfl
  | claim =>
    cases hwk : s.worker with
    | some w => simpa [stepQ, hwk] using ⟨hnd, hw⟩
    | none =>
      cases hfind : s.jobs.find? (fun p => p.2 == JobStatus.pending) with
      | none => simpa [stepQ, hwk, hfind] using ⟨hnd, hw⟩
      | some p =>
        constructor
        · simp only [stepQ, hwk, hfind]
          rw [keys_setStatus]
          exact hnd
        · intro d hd
          simp only [stepQ, hwk, hfind] at hd ⊢
          injection hd with hd
          subst hd
          rw [lookup_setStatus, if_pos rfl]
          have hmem := List.mem_of_find?_eq_some hfind
          have hlook : s.jobs.lookup p.1 = some p.2 := lookup_of_mem_nodup hmem hnd
          rw [hlook]
          rfl
  | finish ok =>
    cases hwk : s.worker with
    | none => simpa [stepQ, hwk] using ⟨hnd, hw⟩
    | some w =>
      constructor
      · simp only [stepQ, hwk]
        rw [keys_setStatus]
        exact hnd
      · intro d hd
        simp only [stepQ, hwk] at hd
        cases hd

theorem qinv_run (es : List Ev) : QInv (runQ es) := by
  have h : ∀ (l : List Ev) (s : QState), QInv s → QInv (l.foldl stepQ s) := by
    intro l
    induction l with
    | nil => intro s hs; simpa using hs
    | cons e es ih => intro s hs; exact ih (stepQ s e) (qinv_step hs e)
  exact h es initQ qinv_init

theorem step_allowed {s : QState} (hinv : QInv s) (e : Ev) (d : String) :
    allowedStep (statusOf s d) (statusOf (stepQ s e) d) = true := by
  obtain ⟨hnd, hw⟩ := hinv
  cases e with
  | add d' =>
    cases hcond : s.jobs.any (fun p => p.1 == d') with
    | true => simp [stepQ, hcond, allowedStep_refl]
    | false =>
      simp only [statusOf, stepQ, hcond, Bool.false_eq_true, if_false]
      rw [List.lookup_append]
      cases hl : s.jobs.lookup d with
      | some v => exact allowedStep_refl (some v)
      | none =>
        by_cases hdd : d = d'
        · subst hdd
          rw [lookup_pair_cons, if_pos rfl]
          rfl
        · rw [lookup_pair_cons, if_neg hdd]
          rfl
  | claim =>
    cases hwk : s.worker with
    | some w => simp [stepQ, hwk, allowedStep_refl]
    | none =>
      cases hfind : s.jobs.find? (fun p => p.2 == JobStatus.pending) with
      | none => simp [stepQ, hwk, hfind, allowedStep_refl]
      | some p =>
        obtain ⟨pd, pst⟩ := p
        have hpend : pst = JobStatus.pending := by simpa using List.find?_some hfind
        subst hpend
        have hmem := List.mem_of_find?_eq_some hfind
        have hlook : s.jobs.lookup pd = some JobStatus.pending :=
          lookup_of_mem_nodup hmem hnd
        simp only [statusOf, stepQ, hwk, hfind]
        rw [lookup_setStatus]
        by_cases hdd : d = pd
        · subst hdd
          rw [if_pos rfl, hlook]
          rfl
        · rw [if_neg hdd]
          exact allowedStep_refl _
  | finish ok =>
    cases hwk : s.worker with
    | none => simp [stepQ, hwk, allowedStep_refl]
    | some w =>
      have hlook := hw w hwk
      simp only [statusOf, stepQ, hwk]
      rw [lookup_setStatus]
      by_cases hdd : d = w
      · subst hdd
        rw [if_pos rfl, hlook]
        cases ok <;> rfl
      · rw [if_neg hdd]
        exact allowedStep_refl _

end Jobs

/-- Claim C4: under the operations the system performs on the jobs table (the
guarded `add_job`, the single worker's `get_next_job` claim, and
`mark_job_completed`/`mark_job_failed` on the claimed job), every adjacent pair
of observations of one document's status is a transition the spec allows -
appear as `pending`, `pending → processing`, `processing → completed/failed`, or
stay put - so `pending→processing→completed` and `pending→processing→failed`
are the only reachable sequences, nothing leaves a terminal state, and no job
is in two terminal states at once. -/
theorem job_status_machine (es : List Jobs.Ev) (e : Jobs.Ev) (d : String) :
    Jobs.allowedStep (Jobs.statusOf (Jobs.runQ es) d)
        (Jobs.statusOf (Jobs.stepQ (Jobs.runQ es) e) d) = true
    ∧ ¬(Jobs.statusOf (Jobs.runQ es) d = some Jobs.JobStatus.completed
        ∧ Jobs.statusOf (Jobs.runQ es) d = some Jobs.JobStatus.failed) := by
  refine ⟨Jobs.step_allowed (Jobs.qinv_run es) e d, ?_⟩
  rintro ⟨h1, h2⟩
  rw [h1] at h2
  cases h2

/-! ### Chunking engine (src/agents/chunking_agent.py).

The tiktoken `cl100k_base` encoder is an external collaborator; the embedding
is parameterised by a `Tokenizer` (token ids are naturals, as in tiktoken),
and a concrete character-level instance is used to evaluate the algorithm. -/

namespace Chunking

/-- The subword tokenizer interface the agent uses (`encoding.encode` /
`encoding.decode`). -/
structure Tokenizer where
  encode : String → List Nat
  decode : List Nat → String

/-- `ChunkingAgent.count_tokens`. -/
def countTokens (tok : Tokenizer) (s : String) : Nat := (tok.encode s).length

/-- A concrete tokenizer: one token per character (a faithful instance of the
interface - `decode` inverts `encode` - used to evaluate the algorithm). -/
def charTok : Tokenizer where
  encode s := s.data.map Char.toNat
  decode l := ⟨l.map Char.ofNat⟩

/-- `re.split` with a single-character capturing class: alternating segments
and one-character separators, as `re.split(r'([。！？；])', text)` returns. -/
def splitKeepChars (seps : List Char) : List Char → List (List Char)
  | [] => [[]]
  | c :: rest =>
    if c ∈ seps then [] :: [c] :: splitKeepChars seps rest
    else
      match splitKeepChars seps rest with
      | seg :: more => (c :: seg) :: more
      | [] => [[c]]

/-- The sentence-ending class of the non-CJK branch. -/
def engPunct : List Char := ['.', '!', '?']

/-- `re.split(r'([.!?]+\s+)', text)` as a left-to-right scanner: a separator is
a maximal run of `.!?` followed by at least one whitespace character. The fuel
argument bounds the recursion; callers pass the text length, which suffices. -/
def engSplitAux : Nat → List Char → List (List Char)
  | 0, l => [l]
  | _ + 1, [] => [[]]
  | fuel + 1, c :: rest =>
    if c ∈ engPunct then
      let ps := (c :: rest).takeWhile (fun x => x ∈ engPunct)
      let r1 := (c :: rest).dropWhile (fun x => x ∈ engPunct)
      let ws := r1.takeWhile Char.isWhitespace
      let r2 := r1.dropWhile Char.isWhitespace
      if ws.isEmpty then
        match engSplitAux fuel rest with
        | seg :: more => (c :: seg) :: more
        | [] => [[c]]
      else [] :: (ps ++ ws) :: engSplitAux fuel r2
    else
      match engSplitAux fuel rest with
      | seg :: more => (c :: seg) :: more
      | [] => [[c]]

/-- The loop `for i in range(0, len(sentences) - 1, 2)` recombining each
segment with its trailing separator (a trailing segment with no separator
after it is dropped, as in the source). -/
def pairUp : List String → List String
  | a :: b :: rest => (a ++ b) :: pairUp rest
  | _ => []

/-- `ChunkingAgent.split_by_sentences`. -/
def splitBySentences (text : String) (language : String) : List String :=
  if language = "zh" then
    (pairUp ((splitKeepChars ['。', '！', '？', '；'] text.data).map
      (fun l => (⟨l⟩ : String)))).filter (fun s => pyStrip s ≠ "")
  else
    (pairUp ((engSplitAux text.data.length text.data).map
      (fun l => (⟨l⟩ : String)))).filter (fun s => pyStrip s ≠ "")

/-- `re.split(r'\n\n+', text)`: split on maximal runs of two or more
newlines. Fuel as in `engSplitAux`. -/
def paraSplitAux : Nat → List Char → List (List Char)
  | 0, l => [l]
  | _ + 1, [] => [[]]
  | fuel + 1, c :: rest =>
    if c = '\n' then
      let run := (c :: rest).takeWhile (fun x => x = '\n')
      let r2 := (c :: rest).dropWhile (fun x => x = '\n')
      if 2 ≤ run.length then [] :: paraSplitAux fuel r2
      else
        match paraSplitAux fuel rest with
        | seg :: more => (c :: seg) :: more
        | [] => [[c]]
    else
      match paraSplitAux fuel rest with
      | seg :: more => (c :: seg) :: more
      | [] => [[c]]

/-- The paragraph split of `chunk_text_recursive`. -/
def paraSplit (s : String) : List String :=
  (paraSplitAux s.data.length s.data).map (fun l => ⟨l⟩)

/-- Python `prev_tokens[-n:]` for `n > 0`. -/
def takeLastN (n : Nat) (l : List Nat) : List Nat := l.drop (l.length - n)

/-- One iteration of the greedy packing loop shared by the paragraph path
(joiner `"\n\n"`) and the sentence path (joiner `" "`): accumulate while the
token count stays within `maxT`; on overflow emit the buffer and seed the next
buffer with the decoded last `overlapT` tokens of the previous chunk joined
with the new unit. The new buffer's own token count is never checked. -/
def packStep (tok : Tokenizer) (maxT overlapT : Nat) (joiner : String)
    (st : List String × String) (unit : String) : List String × String :=
  let chunks := st.1
  let current := st.2
  let u := pyStrip unit
  if u = "" then st
  else
    let test := if current ≠ "" then current ++ joiner ++ u else u
    if countTokens tok test ≤ maxT then (chunks, test)
    else
      let chunks' := if current ≠ "" then chunks ++ [current] else chunks
      if chunks' ≠ [] ∧ 0 < overlapT then
        let prevTokens := tok.encode (chunks'.getLastD "")
        let overlapText := tok.decode (takeLastN overlapT prevTokens)
        (chunks', overlapText ++ joiner ++ u)
      else (chunks', u)

/-- The greedy packing loop plus the final `if current: chunks.append(...)`. -/
def packUnits (tok : Tokenizer) (maxT overlapT : Nat) (joiner : String)
    (units : List String) : List String :=
  let st := units.foldl (packStep tok maxT overlapT joiner) ([], "")
  if st.2 ≠ "" then st.1 ++ [st.2] else st.1

/-- The raw token-window fallback: windows of `maxT` tokens advancing by
`maxT - overlapT`. The source's loop does not terminate when
`overlapT ≥ maxT`; the fuel bounds the model there (the configured values
have `overlapT < maxT`). -/
def tokenWindowsAux (tok : Tokenizer) (tokens : List Nat) (maxT step : Nat) :
    Nat → Nat → List String
  | 0, _ => []
  | fuel + 1, i =>
    if i < tokens.length then
      tok.decode ((tokens.drop i).take maxT)
        :: tokenWindowsAux tok tokens maxT step fuel (i + step)
    else []

/-- The `while i < len(tokens)` window loop of `chunk_text_recursive`. -/
def tokenWindows (tok : Tokenizer) (text : String) (maxT overlapT : Nat) :
    List String :=
  let tokens := tok.encode text
  tokenWindowsAux tok tokens maxT (maxT - overlapT) (tokens.length + 1) 0

/-- `ChunkingAgent.chunk_text_recursive`. In the source both branches of the
CJK conditional compute the same `re.split(r'\n\n+', text)`, so the paragraph
split is written once here. -/
def chunkTextRecursive (tok : Tokenizer) (text : String) (language : String)
    (maxT overlapT : Nat) : List String :=
  if countTokens tok text ≤ maxT then [text]
  else
    let paragraphs := paraSplit text
    if 1 < paragraphs.length then packUnits tok maxT overlapT "\n\n" paragraphs
    else
      let sentences := splitBySentences text language
      if 1 < sentences.length then packUnits tok maxT overlapT " " sentences
      else tokenWindows tok text maxT overlapT

/-- `[PAGE n]` at the head of the character list, when present. -/
def pageDigitsAt (l : List Char) : Option (List Char) :=
  match l with
  | '[' :: 'P' :: 'A' :: 'G' :: 'E' :: ' ' :: rest =>
    match rest.takeWhile Char.isDigit, rest.dropWhile Char.isDigit with
    | [], _ => none
    | ds, ']' :: _ => some ds
    | _, _ => none
  | _ => none

/-- `re.search(r'\[PAGE (\d+)\]', text)`: first match wins. -/
def findPageAux : List Char → Option Nat
  | [] => none
  | c :: rest =>
    match pageDigitsAt (c :: rest) with
    | some ds => some (natOfDigits ds)
    | none => findPageAux rest

/-- `ChunkingAgent.extract_page_number`: page 0 when no marker is found. -/
def extractPageNumber (s : String) : Nat := (findPageAux s.data).getD 0

/-- A produced `Chunk`, with the metadata entries the agent always writes
(`chunk_index`, `total_chunks`, `token_count`) as fields. -/
structure Chunk where
  text : String
  chunk_id : String
  doc_id : String
  language : String
  page_num : Nat
  start_char : Nat
  end_char : Nat
  chunk_index : Nat
  total_chunks : Nat
  token_count : Nat
deriving DecidableEq

/-- Decimal digits of a natural (fuel-bounded division loop). -/
def natDigitsAux : Nat → Nat → List Char
  | 0, _ => []
  | fuel + 1, n =>
    if n < 10 then [Char.ofNat (48 + n)]
    else natDigitsAux fuel (n / 10) ++ [Char.ofNat (48 + n % 10)]

/-- Python `f"{i:04d}"`. -/
def zfill4 (n : Nat) : String :=
  let ds := natDigitsAux (n + 1) n
  ⟨List.replicate (4 - ds.length) '0' ++ ds⟩

/-- `ChunkingAgent.chunk_document`: chunk the text, then wrap each piece with
its id `{doc_id}_chunk_{i:04d}`, recovered page number, running character
offsets and token count. -/
def chunkDocument (tok : Tokenizer) (text doc_id language : String)
    (maxT overlapT : Nat) : List Chunk :=
  let textChunks := chunkTextRecursive tok text language maxT overlapT
  let total := textChunks.length
  (textChunks.enum.foldl (fun (st : List Chunk × Nat) p =>
    let chunk : Chunk := {
      text := p.2,
      chunk_id := doc_id ++ "_chunk_" ++ zfill4 p.1,
      doc_id := doc_id,
      language := language,
      page_num := extractPageNumber p.2,
      start_char := st.2,
      end_char := st.2 + p.2.length,
      chunk_index := p.1,
      total_chunks := total,
      token_count := countTokens tok p.2 }
    (st.1 ++ [chunk], st.2 + p.2.length)) ([], 0)).1

end Chunking

/-- Claim C3 (evaluating the code at the failing input): an oversized
paragraph is never split further - the function recurses on no path - so with
`max_tokens = 3`, `overlap_tokens = 1` and the two-paragraph text
`"ab\n\ncdefgh"`, the second emitted chunk holds 9 tokens, breaking the
`token_count ≤ max_tokens` bound, and `chunk_document` records that oversized
`token_count` in the emitted `Chunk`. -/
theorem chunking_exceeds_max_tokens :
    Chunking.chunkTextRecursive Chunking.charTok "ab\n\ncdefgh" "en" 3 1
      = ["ab", "b\n\ncdefgh"]
    ∧ Chunking.countTokens Chunking.charTok "b\n\ncdefgh" = 9
    ∧ ((Chunking.chunkDocument Chunking.charTok "ab\n\ncdefgh" "doc" "en" 3 1).map
        (fun c => c.token_count)) = [2, 9]
    ∧ 3 < 9 := by
  refine ⟨?_, ?_, ?_, ?_⟩ <;> decide

/-! ### Chat orchestrator: `RAGAgent.chat` (src/agents/rag_agent.py).

The external collaborators of one chat turn are abstracted as an environment:
the retrieved context (the value of `retrieve_context`) and the chunks the
Ollama stream yields (`generate_with_ollama_stream`; an exhausted stream that
yielded nothing is the empty list). `generate_with_gemini` exists in the source
as the declared fallback, and the outcome records whether `chat` ever calls
it. Message persistence (`storage.add_message`) is recorded in call order. -/

namespace Chat

open Retrieval

/-- What one `chat` turn yields to its consumer. -/
inductive ChatEvent where
  | status (msg : String)
  | contextChunks (n : Nat)
  | response (content : String)
  | error (msg : String)
deriving DecidableEq

/-- The abstracted environment of one chat turn. -/
structure ChatEnv where
  ctx : List RetrievalResult
  streamChunks : List String
deriving DecidableEq

/-- The observable outcome of one `chat` turn: the yielded events, the
`(role, content)` rows written by `storage.add_message` in order, and whether
each generator was invoked. -/
structure ChatOutcome where
  events : List ChatEvent
  messages : List (String × String)
  ollamaCalled : Bool
  geminiCalled : Bool
deriving DecidableEq

/-- The hard-coded reply of the empty-retrieval path. -/
def noContextMsg : String :=
  "I couldn't find any relevant information in the document database to answer your question."

/-- The message persisted when the Ollama stream yields nothing. -/
def emptyStreamMsg : String := "Ollama returned empty response"

/-- `RAGAgent.chat`: persist the user message; on empty context reply with
`noContextMsg` without generating; otherwise stream from Ollama (`stream=True`)
or join the stream (`stream=False`), persisting the assistant message. No
branch calls `generate_with_gemini`. -/
def chat (query : String) (stream : Bool) (env : ChatEnv) : ChatOutcome :=
  let base : List (String × String) := [("user", query)]
  if env.ctx.isEmpty then
    { events := [ChatEvent.status "Retrieving relevant documents...",
                 ChatEvent.status "No relevant documents found",
                 ChatEvent.response noContextMsg],
      messages := base ++ [("assistant", noContextMsg)],
      ollamaCalled := false, geminiCalled := false }
  else
    let pre := [ChatEvent.status "Retrieving relevant documents...",
                ChatEvent.contextChunks env.ctx.length,
                ChatEvent.status "Generating response..."]
    if stream then
      if env.streamChunks.isEmpty then
        { events := pre ++ [ChatEvent.error emptyStreamMsg],
          messages := base ++ [("assistant", emptyStreamMsg)],
          ollamaCalled := true, geminiCalled := false }
      else
        { events := pre ++ env.streamChunks.map ChatEvent.response,
          messages := base ++ [("assistant", String.join env.streamChunks)],
          ollamaCalled := true, geminiCalled := false }
    else
      let t := String.join env.streamChunks
      if t = "" then
        { events := pre ++ [ChatEvent.response emptyStreamMsg],
          messages := base ++ [("assistant", emptyStreamMsg)],
          ollamaCalled := true, geminiCalled := false }
      else
        { events := pre ++ [ChatEvent.response t],
          messages := base ++ [("assistant", t), ("assistant", t)],
          ollamaCalled := true, geminiCalled := false }

end Chat

/-- Claim C1 (evaluating the code at the failing input): a streamed chat turn
with nonempty context whose Ollama stream yields nothing does not fall back to
Gemini - `generate_with_gemini` is never invoked by `chat` - and instead
persists and yields the error text "Ollama returned empty response". -/
theorem chat_empty_stream_no_gemini_fallback :
    (Chat.chat "what is the budget limit?" true
        { ctx := [⟨"c1", "d1", "t1", 1, "en", 1, []⟩], streamChunks := [] }).geminiCalled
      = false
    ∧ (Chat.chat "what is the budget limit?" true
        { ctx := [⟨"c1", "d1", "t1", 1, "en", 1, []⟩], streamChunks := [] }).messages
      = [("user", "what is the budget limit?"), ("assistant", "Ollama returned empty response")] := by
  constructor <;> rfl

/-- Claim C8: a chat turn whose retrieval produces no context yields the
explicit no-relevant-information response without calling either generator,
and persists both the user question and that assistant message. -/
theorem chat_empty_context_replies (query : String) (stream : Bool)
    (env : Chat.ChatEnv) (hctx : env.ctx = []) :
    (Chat.chat query stream env).messages
      = [("user", query), ("assistant", Chat.noContextMsg)]
    ∧ Chat.ChatEvent.response Chat.noContextMsg ∈ (Chat.chat query stream env).events
    ∧ (Chat.chat query stream env).ollamaCalled = false
    ∧ (Chat.chat query stream env).geminiCalled = false := by
  have h : env.ctx.isEmpty = true := by rw [hctx]; rfl
  refine ⟨?_, ?_, ?_, ?_⟩ <;> simp [Chat.chat, h]

/-- Witness for claim C8 at a concrete input: empty retrieval. -/
theorem chat_empty_context_replies_witness :
    (Chat.chat "anything?" true { ctx := [], streamChunks := ["x"] }).messages
      = [("user", "anything?"), ("assistant", Chat.noContextMsg)]
    ∧ Chat.ChatEvent.response Chat.noContextMsg
        ∈ (Chat.chat "anything?" true { ctx := [], streamChunks := ["x"] }).events
    ∧ (Chat.chat "anything?" true { ctx := [], streamChunks := ["x"] }).ollamaCalled = false
    ∧ (Chat.chat "anything?" true { ctx := [], streamChunks := ["x"] }).geminiCalled = false :=
  chat_empty_context_replies "anything?" true { ctx := [], streamChunks := ["x"] } rfl

/-- Claim C9: with nonempty context and a nonempty generated response, the
non-streaming path persists the assistant message twice (`add_message` inside
the `if response_text` branch and again after the branch), while the streaming
path persists it exactly once. -/
theorem chat_nonstream_double_persist (query : String) (env : Chat.ChatEnv)
    (hctx : env.ctx ≠ []) (hjoin : String.join env.streamChunks ≠ "")
    (hchunks : env.streamChunks ≠ []) :
    (Chat.chat query false env).messages
      = [("user", query), ("assistant", String.join env.streamChunks),
         ("assistant", String.join env.streamChunks)]
    ∧ ((Chat.chat query false env).messages.count
        ("assistant", String.join env.streamChunks)) = 2
    ∧ (Chat.chat query true env).messages
      = [("user", query), ("assistant", String.join env.streamChunks)]
    ∧ ((Chat.chat query true env).messages.count
        ("assistant", String.join env.streamChunks)) = 1 := by
  have hc : env.ctx.isEmpty = false := by
    cases h : env.ctx with
    | nil => exact absurd h hctx
    | cons a l => rfl
  have hs : env.streamChunks.isEmpty = false := by
    cases h : env.streamChunks with
    | nil => exact absurd h hchunks
    | cons a l => rfl
  refine ⟨?_, ?_, ?_, ?_⟩
  · simp [Chat.chat, hc, hjoin]
  · simp [Chat.chat, hc, hjoin, List.count_cons]
  · simp [Chat.chat, hc, hs]
  · simp [Chat.chat, hc, hs, List.count_cons]

/-- Witness for claim C9 at a concrete input: context of one chunk, a stream
that yields "Hello " and "world". -/
theorem chat_nonstream_double_persist_witness :
    (Chat.chat "hi" false
        { ctx := [⟨"c1", "d1", "t1", 1, "en", 1, []⟩],
          streamChunks := ["Hello ", "world"] }).messages
      = [("user", "hi"), ("assistant", String.join ["Hello ", "world"]),
         ("assistant", String.join ["Hello ", "world"])]
    ∧ ((Chat.chat "hi" false
        { ctx := [⟨"c1", "d1", "t1", 1, "en", 1, []⟩],
          streamChunks := ["Hello ", "world"] }).messages.count
        ("assistant", String.join ["Hello ", "world"])) = 2
    ∧ (Chat.chat "hi" true
        { ctx := [⟨"c1", "d1", "t1", 1, "en", 1, []⟩],
          streamChunks := ["Hello ", "world"] }).messages
      = [("user", "hi"), ("assistant", String.join ["Hello ", "world"])]
    ∧ ((Chat.chat "hi" true
        { ctx := [⟨"c1", "d1", "t1", 1, "en", 1, []⟩],
          streamChunks := ["Hello ", "world"] }).messages.count
        ("assistant", String.join ["Hello ", "world"])) = 1 :=
  chat_nonstream_double_persist "hi"
    { ctx := [⟨"c1", "d1", "t1", 1, "en", 1, []⟩], streamChunks := ["Hello ", "world"] }
    (by decide) (by decide) (by decide)

/-- Claim C7 (counterexample): a line whose cleaned form has exactly 10
characters is discarded by `_parse_sub_queries`, though the claim says every
cleaned line of 10 characters or more is kept. -/
theorem parse_sub_queries_drops_length_10 :
    (Decomp.cleanLine "regulation").length = 10
    ∧ Decomp.parseSubQueries "regulation" = [] := by
  constructor <;> decide

end RAGging
